import Mathlib

/-!
Verification of the xml2mw markup translation engine (`xml2mw/transform.py`)
and the page deduplication step (`read_xml.py`), as a shallow embedding over
`List Char` (one `Char` per Python character; all inputs considered are ASCII).

Conventions of the embedding:
* A Python string is a `List Char`; the public entry point `to_mw` takes a
  Lean `String` and splits it on newline like Python's `str.split`.
* Python dicts that are only iterated or looked up are association lists in
  iteration (= insertion) order.
* The source templates of `MARKUP` each contain exactly one format slot, so a
  template is embedded as the pair of the text before and after the slot, and
  `str.format` as concatenation around the argument.
* `datetime.strptime(s, "%Y-%m-%d %H:%M:%S.%f")` comparison is embedded as
  lexicographic comparison of the raw strings, which coincides with the
  chronological order on strings in that zero-padded fixed-width format.
-/

/-- Characters that the emphasis regex `([\*_]+)(\S[^\*_]*)([\*_]+)` treats as
delimiter characters, i.e. the class `[\*_]`. -/
def isDelim (c : Char) : Bool := c == '*' || c == '_'

/-- The regex class `\s` (ASCII fragment): Python whitespace characters.
`\S` in the pattern is the negation of this. -/
def isSpaceChar (c : Char) : Bool :=
  c == ' ' || c == '\t' || c == '\n' || c == '\r' || c == '\x0b' || c == '\x0c'

/-- Greedy scan: the maximal prefix whose characters satisfy `p`, and the
rest (the semantics of a greedy character-class repetition in a regex). -/
def spanP (p : Char → Bool) : List Char → List Char × List Char
  | [] => ([], [])
  | c :: t =>
    if p c then
      match spanP p t with
      | (a, b) => (c :: a, b)
    else ([], c :: t)

/-- Python's `s.split('\n')`: splitting on every newline; the empty string
yields one empty piece. -/
def splitLines : List Char → List (List Char)
  | [] => [[]]
  | c :: t =>
    if c = '\n' then [] :: splitLines t
    else
      match splitLines t with
      | [] => [[c]]
      | l :: ls => (c :: l) :: ls

/-- Python's `s.lstrip(chars)`: remove from the left the longest run of
characters that are members of the character SET `chars` (not the literal
prefix `chars` - this set semantics is what the source's
`line.lstrip(confluence)` does). -/
def lstripSet (chars : List Char) : List Char → List Char
  | [] => []
  | c :: t => if c ∈ chars then lstripSet chars t else c :: t

/-- Association-list lookup, the embedding of Python `dict` lookup
(`d[k]` / `d.get(k)`). -/
def alookup {β : Type} (k : List Char) : List (List Char × β) → Option β
  | [] => none
  | (k', v) :: t => if k = k' then some v else alookup k t

/-- The `MARKUP` template table of `transform.py`. Each source template has
exactly one slot (e.g. `'h1'` maps to an equals sign, the slot, an equals
sign), embedded as the (before-slot, after-slot) pair of strings. -/
def MARKUP : List (List Char × (List Char × List Char)) :=
  [ ("h1".data,    ("= ".data,    " =".data)),
    ("h2".data,    ("== ".data,   " ==".data)),
    ("h3".data,    ("=== ".data,  " ===".data)),
    ("h4".data,    ("==== ".data, " ====".data)),
    ("hr".data,    ("----".data,  "".data)),
    ("uli".data,   ("* ".data,    "".data)),
    ("ulii".data,  ("** ".data,   "".data)),
    ("uliii".data, ("*** ".data,  "".data)),
    ("oli".data,   ("# ".data,    "".data)),
    ("olii".data,  ("## ".data,   "".data)),
    ("oliii".data, ("### ".data,  "".data)) ]

/-- The `CONFLUENCE_MU` structural-rule table of `transform.py`, in source
(= dict insertion) order: confluence line prefix token to `MARKUP` tag. -/
def CONFLUENCE_MU : List (List Char × List Char) :=
  [ ("h1. ".data,  "h1".data),
    ("h2. ".data,  "h2".data),
    ("h3. ".data,  "h3".data),
    ("h4. ".data,  "h4".data),
    ("* ".data,    "uli".data),
    ("- ".data,    "uli".data),
    ("-- ".data,   "ulii".data),
    ("--- ".data,  "uliii".data) ]

/-- The `EMPHASIS` rule table of `transform.py`: delimiter run to target
delimiter (runs of MediaWiki apostrophes). -/
def EMPHASIS : List (List Char × List Char) :=
  [ ("*".data,  "'''".data),
    ("_".data,  "''".data),
    ("*_".data, "'''''".data),
    ("_*".data, "'''''".data) ]

/-- `__get_markup(tag, content)`: instantiate the template of `tag` with
`content`; unknown tag yields the empty string. -/
def get_markup (tag : List Char) (content : List Char) : List Char :=
  match alookup tag MARKUP with
  | some (pre, suf) => pre ++ content ++ suf
  | none => []

/-- The loop of `_transform_line_start`, over an explicit rule table: the
first rule whose token is a literal prefix of the line (`line.startswith`). -/
def findRule (rules : List (List Char × List Char)) (line : List Char) :
    Option (List Char × List Char) :=
  rules.find? (fun r => r.1.isPrefixOf line)

/-- `_transform_line_start`, generic in the rule table. On a match the source
rebinds `line` to the `__get_markup` result and sets `result` to it, so
`return result or line` returns that result in either case; with no match
`result` stays empty and the original line is returned. -/
def transform_line_start_with (rules : List (List Char × List Char))
    (line : List Char) : List Char :=
  match findRule rules line with
  | some (confluence, tag) => get_markup tag (lstripSet confluence line)
  | none => line

/-- `_transform_line_start` of `transform.py` (with its table). -/
def transform_line_start (line : List Char) : List Char :=
  transform_line_start_with CONFLUENCE_MU line

/-- One attempt of the emphasis regex at a fixed start position, for a fixed
length `a` of the first group, counting `a` down (the regex engine gives back
one delimiter character at a time from the greedy `[\*_]+`). `run` is the
maximal delimiter run at the position, `rest` the text after it. On success
returns the three groups and the text after the whole match. -/
def tryMatch (run rest : List Char) : Nat →
    Option (List Char × List Char × List Char × List Char)
  | 0 => none
  | a + 1 =>
    match run.drop (a + 1) ++ rest with
    | [] => tryMatch run rest a
    | c :: r' =>
      if isSpaceChar c then tryMatch run rest a
      else
        -- `\S` matched `c`; `[^\*_]*` greedily takes the non-delimiter run;
        -- `[\*_]+` then needs at least one delimiter character.
        match spanP (fun d => !isDelim d) r' with
        | (mid, u) =>
          match spanP isDelim u with
          | ([], _) => tryMatch run rest a
          | (g3, v) => some (run.take (a + 1), c :: mid, g3, v)

/-- Try the emphasis regex anchored at the start of `s`: the first group
greedily takes the maximal delimiter run and backtracks to shorter lengths. -/
def matchAt (s : List Char) :
    Option (List Char × List Char × List Char × List Char) :=
  match spanP isDelim s with
  | (run, t) => tryMatch run t run.length

/-- Leftmost match of the emphasis regex in `s`: the text before the match,
the three groups, and the text after the match (Python match scanning). -/
def findMatch : List Char →
    Option (List Char × (List Char × List Char × List Char) × List Char)
  | [] => none
  | c :: t =>
    match matchAt (c :: t) with
    | some (g1, g2, g3, rest) => some ([], (g1, g2, g3), rest)
    | none =>
      match findMatch t with
      | some (pre, m, rest) => some (c :: pre, m, rest)
      | none => none

/-- `re.findall(emphasis_pattern, s)`: all non-overlapping matches, scanning
left to right, as group triples. Fuel-driven so that the definition computes
by kernel reduction; every match consumes at least three characters, so fuel
`s.length` never runs out. -/
def findallF : Nat → List Char → List (List Char × List Char × List Char)
  | 0, _ => []
  | fuel + 1, s =>
    match findMatch s with
    | none => []
    | some (_, m, rest) => m :: findallF fuel rest

/-- `re.findall(emphasis_pattern, s)` with sufficient fuel. -/
def findall (s : List Char) : List (List Char × List Char × List Char) :=
  findallF s.length s

/-- `re.sub(emphasis_pattern, repl, s, count=1)`: replace the leftmost match
of the emphasis pattern by `repl` (the source's replacement strings are
apostrophe runs and matched content; template escapes play no role there). -/
def subFirst (s repl : List Char) : List Char :=
  match findMatch s with
  | none => s
  | some (pre, _, rest) => pre ++ repl ++ rest

/-- The loop body of `_transform_inner_line`: iterate over the matches found
in the ORIGINAL line; on an accepted and resolvable match substitute into the
CURRENT line (this mirrors the source exactly, including that the
substitution hits the first match of the current line, wherever that is). -/
def innerLoop : List (List Char × List Char × List Char) → List Char →
    List Char → List Char
  | [], line, result => if result = [] then line else result
  | (s, c, e) :: ms, line, result =>
    if s = e ∨ s = e.reverse then
      match alookup s EMPHASIS with
      | some markup =>
        let newline := subFirst line (markup ++ c ++ markup)
        innerLoop ms newline newline
      | none => innerLoop ms line result
    else innerLoop ms line result

/-- `_transform_inner_line` of `transform.py`. -/
def transform_inner_line (line : List Char) : List Char :=
  innerLoop (findall line) line []

/-- The per-line pipeline of `to_mw`: structural rewrite, then inline
emphasis rewrite. -/
def toMwLine (line : List Char) : List Char :=
  transform_inner_line (transform_line_start line)

/-- `to_mw(body_content)` of `transform.py`: split on newlines and transform
each line (the generator materialized as the list of yielded lines). -/
def to_mw (body : String) : List String :=
  (splitLines body.data).map (fun l => (toMwLine l).asString)

/-! ### Embedding of `read_xml.py`'s deduplication (`filter_most_recent`) -/

/-- A page record, restricted to the fields `filter_most_recent` consults
(`title`, `creationDate`, `lastModificationDate`) plus `id`, which it copies
into `recent_ids`.  The remaining dict entries of a real page record play no
role in deduplication. -/
structure Page where
  id : List Char
  title : List Char
  creationDate : List Char
  lastModificationDate : List Char
deriving DecidableEq, Repr

/-- `"{}#{}".format(values['title'], values['creationDate'])`: the grouping
identifier of a record. -/
def identOf (v : Page) : List Char := v.title ++ '#' :: v.creationDate

/-- The source parses both `lastModificationDate` strings with
`datetime.strptime(_, "%Y-%m-%d %H:%M:%S.%f")` and compares the results; on
strings in that zero-padded fixed-width format the datetime order is the
lexicographic order of the raw strings, which is how the comparison is
embedded. -/
def dateLt (a b : List Char) : Bool := decide (a < b)

/-- Python dict assignment `d[k] = v` for a key already present: replace the
value in place. -/
def aupdate (k : List Char) (v : Page) :
    List (List Char × Page) → List (List Char × Page)
  | [] => []
  | (k', v') :: t => if k = k' then (k, v) :: t else (k', v') :: aupdate k v t

/-- One iteration of the `for key, values in pages.items()` loop of
`filter_most_recent`: keep the first record of an unseen identifier, replace
the stored record when the new one has a strictly later modification date. -/
def fmrStep (recent : List (List Char × Page)) (kv : List Char × Page) :
    List (List Char × Page) :=
  match alookup (identOf kv.2) recent with
  | none => recent ++ [(identOf kv.2, kv.2)]
  | some other =>
    if dateLt other.lastModificationDate kv.2.lastModificationDate then
      aupdate (identOf kv.2) kv.2 recent
    else recent

/-- `filter_most_recent(pages)` of `read_xml.py`: fold the pages into the
`recent_pages` map, collect the ids of its values, and keep the pages whose
key is among those ids (in original iteration order). -/
def filter_most_recent (pages : List (List Char × Page)) :
    List (List Char × Page) :=
  let recent := pages.foldl fmrStep []
  let recentIds := recent.map (fun q => q.2.id)
  pages.filter (fun p => recentIds.contains p.1)

/-- The records of `pages` whose grouping identifier is `i`, in iteration
order (the "group" of `i`). -/
def groupRecs (i : List Char) (pages : List (List Char × Page)) : List Page :=
  (pages.map Prod.snd).filter (fun v => identOf v == i)

/-- `v` attains the maximal modification date of the list `l`. -/
def isGroupMax (l : List Page) (v : Page) : Bool :=
  l.all (fun u => !dateLt v.lastModificationDate u.lastModificationDate)

/-- The first record of `l` (iteration order) attaining the maximal
modification date of `l`. -/
def firstMax (l : List Page) : Option Page := l.find? (isGroupMax l)

/-- The winner-so-far update of a left-to-right scan that replaces the
winner exactly on a strictly later date (the effective content of
`fmrStep` on a single group). -/
def bestStep (acc : Option Page) (r : Page) : Option Page :=
  match acc with
  | none => some r
  | some w =>
    if dateLt w.lastModificationDate r.lastModificationDate then some r
    else some w

/-- The record `filter_most_recent` retains for one group, computed directly
on the group's records. -/
def bestP (l : List Page) : Option Page := l.foldl bestStep none

/-- Concrete record for the tie-break counterexample: id "1", encountered
first, modification date equal to that of `tieR2`. -/
def tieR1 : Page :=
  ⟨"1".data, "T".data, "2012-07-13 15:02:49.000000".data,
    "2015-11-24 18:27:47.000000".data⟩

/-- Concrete record for the tie-break counterexample: id "2", encountered
second, modification date equal to that of `tieR1`. -/
def tieR2 : Page :=
  ⟨"2".data, "T".data, "2012-07-13 15:02:49.000000".data,
    "2015-11-24 18:27:47.000000".data⟩

/-- Two records of one (title, creationDate) group with exactly equal
modification dates, keyed by their ids, in iteration order. -/
def tiePages : List (List Char × Page) :=
  [("1".data, tieR1), ("2".data, tieR2)]

/-! ### Helper lemmas -/

/-- `find?` is the head of `filter`. -/
theorem find?_eq_head?_filter {α : Type} (p : α → Bool) (l : List α) :
    l.find? p = (l.filter p).head? := by
  induction l with
  | nil => rfl
  | cons a t ih =>
    by_cases h : p a
    · rw [List.find?_cons_of_pos _ h, List.filter_cons_of_pos h, List.head?_cons]
    · rw [List.find?_cons_of_neg _ (by simpa using h),
        List.filter_cons_of_neg (by simpa using h), ih]

/-- A duplicate-free list whose elements are pairwise equal has at most one
element. -/
theorem length_le_one_of_nodup {α : Type} {l : List α} (hnd : l.Nodup)
    (h : ∀ a ∈ l, ∀ b ∈ l, a = b) : l.length ≤ 1 := by
  match l with
  | [] => simp
  | [a] => simp
  | a :: b :: t =>
    exact absurd (h a (by simp) b (by simp)) (by simp at hnd; tauto)

/-- Every character of `lstripSet chars l` is a character of `l`. -/
theorem mem_of_mem_lstripSet {chars l : List Char} {a : Char}
    (h : a ∈ lstripSet chars l) : a ∈ l := by
  induction l with
  | nil => simp [lstripSet] at h
  | cons c t ih =>
    rw [lstripSet] at h
    by_cases hc : c ∈ chars
    · simp only [hc, if_true] at h
      exact List.mem_cons_of_mem _ (ih h)
    · simpa [hc] using h

/-- Dropping a leading block of stripped characters: `lstrip` over a prefix
whose characters all lie in the strip set continues into the tail. -/
theorem lstripSet_append_of_forall_mem {chars p : List Char}
    (hp : ∀ c ∈ p, c ∈ chars) (l : List Char) :
    lstripSet chars (p ++ l) = lstripSet chars l := by
  induction p with
  | nil => rfl
  | cons c t ih =>
    have hc : c ∈ chars := hp c (by simp)
    rw [List.cons_append, lstripSet, if_pos hc]
    exact ih fun d hd => hp d (by simp [hd])

/-- On a delimiter-free text the emphasis regex has no match. -/
theorem findMatch_eq_none_of_no_delim {s : List Char}
    (h : ∀ c ∈ s, isDelim c = false) : findMatch s = none := by
  induction s with
  | nil => rfl
  | cons c t ih =>
    have hc : isDelim c = false := h c (by simp)
    have hspan : spanP isDelim (c :: t) = ([], c :: t) := by
      rw [spanP, hc]; simp
    have hmat : matchAt (c :: t) = none := by
      rw [matchAt, hspan]; rfl
    rw [findMatch, hmat, ih fun d hd => h d (by simp [hd])]

/-- On a delimiter-free line `_transform_inner_line` is the identity. -/
theorem transform_inner_line_of_no_delim {l : List Char}
    (h : ∀ c ∈ l, isDelim c = false) : transform_inner_line l = l := by
  have hfa : findall l = [] := by
    rw [findall]
    cases l with
    | nil => rfl
    | cons c t =>
      rw [List.length_cons, findallF, findMatch_eq_none_of_no_delim h]
  rw [transform_inner_line, hfa, innerLoop, if_pos rfl]

/-- A line matched by no structural rule passes `_transform_line_start`
unchanged. -/
theorem transform_line_start_of_no_rule {l : List Char}
    (h : ∀ r ∈ CONFLUENCE_MU, ¬ r.1.isPrefixOf l) :
    transform_line_start l = l := by
  have : findRule CONFLUENCE_MU l = none :=
    List.find?_eq_none.mpr fun r hr => by simpa using h r hr
  rw [transform_line_start, transform_line_start_with, this]

/-! ### Claim theorems -/

/-- C1 (code evaluation at the failing input): the claim says the classifier
removes exactly the detected prefix token, so `"h1. hello"` would keep the
remainder `"hello"` and translate to `"= hello ="`.  The code instead calls
`line.lstrip(confluence)`, which strips the whole leading run of characters
drawn from the token's character SET, eating the `h` of `hello`: the line
translates to `"= ello ="`. -/
theorem c1_lstrip_charset_eval :
    to_mw "h1. hello" = ["= ello ="] ∧ to_mw "h1. hello" ≠ ["= hello ="] := by
  constructor
  · decide
  · decide

/-- C2 (code evaluation at the failing input): the claim says a rejected
earlier occurrence is left unchanged and a later acceptable span is rewritten
in its own place, so `"*x_ then *ok* end"` would become
`"*x_ then '''ok''' end"`.  The code calls `re.sub(..., count=1)` with the
original pattern, which replaces the FIRST pattern match of the current line:
the rewrite of the accepted later span lands on the rejected occurrence
`*x_`, which is destroyed, while the accepted span's own text stays. -/
theorem c2_misplaced_substitution_eval :
    to_mw "*x_ then *ok* end" = ["'''ok''' then *ok* end"] ∧
    to_mw "*x_ then *ok* end" ≠ ["*x_ then '''ok''' end"] := by
  constructor
  · decide
  · decide

/-- C3 counterexample: the claim says every line `'hN. c'` with `N ≥ 5`
passes through translation unchanged, for every content string `c`.  For
`c = "*x*"` the emphasis stage still rewrites the line (to `"h5. '''x'''"`),
so it does not pass through unchanged. -/
theorem c3_counterexample :
    to_mw "h5. *x*" ≠ ["h5. *x*"] ∧ to_mw "h5. *x*" = ["h5. '''x'''"] := by
  constructor
  · decide
  · decide

/-- C4: accepted emphasis spans (closing run equal to the opening run or to
its reverse, opening run present in `EMPHASIS`) are replaced by the target
delimiter on both sides of the unchanged content, on the claim's three
inputs, covering `*`, `*_` and the `_*` orientation. -/
theorem c4_emphasis_examples :
    to_mw "text with *inline emphasis* and more text" =
      ["text with '''inline emphasis''' and more text"] ∧
    to_mw "text with *_inline emphasis_* and more text" =
      ["text with '''''inline emphasis''''' and more text"] ∧
    to_mw "text with _*inline emphasis*_ and more text" =
      ["text with '''''inline emphasis''''' and more text"] := by
  refine ⟨by decide, by decide, by decide⟩

/-- C6 (code evaluation at the failing input): the claim says `'* ' + r` and
`'- ' + r` always translate to the identical line.  With `r = "- x"` the
`lstrip` character-set stripping eats the second `"- "` only in the second
variant: `"* - x"` stays `"* - x"` while `"- - x"` becomes `"* x"`. -/
theorem c6_list_variant_divergence_eval :
    to_mw "* - x" = ["* - x"] ∧ to_mw "- - x" = ["* x"] ∧
    to_mw "* - x" ≠ to_mw "- - x" := by
  refine ⟨by decide, by decide, by decide⟩

/-- C7: the empty body yields exactly one output line, the empty string, and
joining the output by the line separator gives back the empty string. -/
theorem c7_empty_input :
    to_mw "" = [""] ∧ String.intercalate "\n" (to_mw "") = "" := by
  refine ⟨by decide, by decide⟩

/-- C9 counterexample: the claim says that of two records of a group with
exactly equal `lastModificationDate` the one encountered LATER in iteration
order is retained.  On `tiePages` (two such records, ids "1" then "2") the
code retains the earlier record `tieR1` and drops the later `tieR2`: the
comparison `other_date < this_date` is strict, so a tie never replaces the
stored record. -/
theorem c9_tie_counterexample :
    filter_most_recent tiePages = [("1".data, tieR1)] ∧
    ("2".data, tieR2) ∉ filter_most_recent tiePages := by
  refine ⟨by decide, by decide⟩

/-- Two structural rules whose tokens both literally prefix the same line are
the same rule: the table's tokens are pairwise non-prefixes of one another. -/
theorem structRuleMatch_unique (line : List Char) :
    ∀ r1 ∈ CONFLUENCE_MU, ∀ r2 ∈ CONFLUENCE_MU,
      r1.1.isPrefixOf line → r2.1.isPrefixOf line → r1 = r2 := by
  intro r1 h1 r2 h2 hp1 hp2
  have k1 : r1.1 <+: line := List.isPrefixOf_iff_prefix.mp hp1
  have k2 : r2.1 <+: line := List.isPrefixOf_iff_prefix.mp hp2
  have key : ∀ a ∈ CONFLUENCE_MU, ∀ b ∈ CONFLUENCE_MU, a.1 <+: b.1 → a = b := by
    decide
  cases List.prefix_or_prefix_of_prefix k1 k2 with
  | inl h => exact key r1 h1 r2 h2 h
  | inr h => exact (key r2 h2 r1 h1 h).symm

/-- C5: identity on marker-free input.  If no line of the body starts with a
structural prefix token and no line contains a delimiter character, `to_mw`
reproduces every line of the body unchanged. -/
theorem c5_marker_free_identity (body : String)
    (h : ∀ l ∈ splitLines body.data,
      (∀ r ∈ CONFLUENCE_MU, r.1.isPrefixOf l = false) ∧
      (∀ c ∈ l, isDelim c = false)) :
    to_mw body = (splitLines body.data).map List.asString := by
  rw [to_mw]
  apply List.map_congr_left
  intro l hl
  have hs : transform_line_start l = l :=
    transform_line_start_of_no_rule fun r hr => by simp [(h l hl).1 r hr]
  have hi : transform_inner_line l = l :=
    transform_inner_line_of_no_delim (h l hl).2
  rw [toMwLine, hs, hi]

/-- C5 witness: the theorem applied to a concrete marker-free body. -/
theorem c5_marker_free_identity_witness :
    to_mw "just text\nno markers here." =
      (splitLines "just text\nno markers here.".data).map List.asString :=
  c5_marker_free_identity _ (by decide)

/-- C8: at most one structural rule matches any line (their prefix tokens
are pairwise non-prefixes of one another), so the chosen rule - and with it
the translated line - does not depend on the iteration order of the rule
table: `_transform_line_start` computes the same line over any permutation
of `CONFLUENCE_MU`. -/
theorem c8_rule_order_independent :
    (∀ line : List Char, ∀ r1 ∈ CONFLUENCE_MU, ∀ r2 ∈ CONFLUENCE_MU,
      r1.1.isPrefixOf line → r2.1.isPrefixOf line → r1 = r2) ∧
    (∀ rules, rules.Perm CONFLUENCE_MU →
      ∀ line, transform_line_start_with rules line = transform_line_start line) := by
  constructor
  · exact structRuleMatch_unique
  · intro rules hperm line
    have hfind : findRule rules line = findRule CONFLUENCE_MU line := by
      rw [findRule, findRule, find?_eq_head?_filter, find?_eq_head?_filter]
      have hpf := hperm.filter (fun r : List Char × List Char => r.1.isPrefixOf line)
      have hnd : (CONFLUENCE_MU.filter
          (fun r : List Char × List Char => r.1.isPrefixOf line)).Nodup :=
        (by decide : CONFLUENCE_MU.Nodup).filter _
      have hle : (CONFLUENCE_MU.filter
          (fun r : List Char × List Char => r.1.isPrefixOf line)).length ≤ 1 := by
        apply length_le_one_of_nodup hnd
        intro a ha b hb
        exact structRuleMatch_unique line
          a (List.mem_filter.mp ha).1 b (List.mem_filter.mp hb).1
          (List.mem_filter.mp ha).2 (List.mem_filter.mp hb).2
      rcases Nat.le_one_iff_eq_zero_or_eq_one.mp hle with h0 | h1
      · have h0' := List.length_eq_zero.mp h0
        rw [h0'] at hpf
        rw [hpf.eq_nil, h0']
      · obtain ⟨a, ha⟩ := List.length_eq_one.mp h1
        rw [ha] at hpf
        rw [List.perm_singleton.mp hpf, ha]
    rw [transform_line_start, transform_line_start_with,
      transform_line_start_with, hfind]

/-- C8 witness: the reversed rule table classifies and translates a
third-level list line exactly as the original table. -/
theorem c8_rule_order_independent_witness :
    transform_line_start_with CONFLUENCE_MU.reverse ("--- deep item".data) =
      transform_line_start ("--- deep item".data) :=
  c8_rule_order_independent.2 _ (by decide) _

/-- C10: every tag of the structural rule table is a key of the template
table, so a structurally matched line always becomes its template
instantiation - which is never the empty string, hence the `KeyError`
fallback of `__get_markup` (returning `''`) is unreachable for matched
lines. -/
theorem c10_markup_covers_rules :
    (∀ r ∈ CONFLUENCE_MU, (alookup r.2 MARKUP).isSome) ∧
    (∀ line tok tag, findRule CONFLUENCE_MU line = some (tok, tag) →
      transform_line_start line = get_markup tag (lstripSet tok line) ∧
      get_markup tag (lstripSet tok line) ≠ []) := by
  constructor
  · decide
  · intro line tok tag h
    have hmem : (tok, tag) ∈ CONFLUENCE_MU := List.mem_of_find?_eq_some h
    constructor
    · rw [transform_line_start, transform_line_start_with, h]
    · have hb : ∀ r ∈ CONFLUENCE_MU,
          ((alookup r.2 MARKUP).map (fun pr => decide (pr.1 ≠ []))).getD false
            = true := by decide
      have hb2 := hb _ hmem
      cases halo : alookup tag MARKUP with
      | none => rw [halo] at hb2; simp at hb2
      | some pr =>
        obtain ⟨pre, suf⟩ := pr
        rw [halo] at hb2
        simp only [Option.map_some', Option.getD_some, decide_eq_true_eq] at hb2
        simp only [get_markup, halo]
        intro hx
        rw [List.append_eq_nil, List.append_eq_nil] at hx
        exact hb2 hx.1.1

/-- C10 witness: the theorem applied to a concrete matched heading line. -/
theorem c10_markup_covers_rules_witness :
    transform_line_start ("h3. T".data) =
      get_markup ("h3".data) (lstripSet ("h3. ".data) ("h3. T".data)) ∧
    get_markup ("h3".data) (lstripSet ("h3. ".data) ("h3. T".data)) ≠ [] :=
  c10_markup_covers_rules.2 _ _ _ (by decide)

/-- A decimal digit is not an emphasis delimiter character. -/
theorem isDelim_eq_false_of_isDigit {ch : Char} (h : ch.isDigit = true) :
    isDelim ch = false := by
  rw [isDelim]
  by_cases h1 : ch = '*'
  · rw [h1] at h; exact absurd h (by decide)
  · by_cases h2 : ch = '_'
    · rw [h2] at h; exact absurd h (by decide)
    · simp [h1, h2]

/-- A structurally matched line whose token, template halves and content are
all free of delimiter characters translates to its template instantiation
and is untouched by the emphasis stage. -/
theorem toMwLine_heading (tok tag pre suf c : List Char)
    (hfind : findRule CONFLUENCE_MU (tok ++ c) = some (tok, tag))
    (hmk : alookup tag MARKUP = some (pre, suf))
    (hpre : ∀ ch ∈ pre, isDelim ch = false)
    (hsuf : ∀ ch ∈ suf, isDelim ch = false)
    (htok : ∀ ch ∈ tok, isDelim ch = false)
    (hc : ∀ ch ∈ c, isDelim ch = false) :
    toMwLine (tok ++ c) = pre ++ lstripSet tok (tok ++ c) ++ suf := by
  have hstart : transform_line_start (tok ++ c) =
      pre ++ lstripSet tok (tok ++ c) ++ suf := by
    rw [transform_line_start, transform_line_start_with, hfind]
    simp only [get_markup, hmk]
  have hnd : ∀ ch ∈ pre ++ lstripSet tok (tok ++ c) ++ suf,
      isDelim ch = false := by
    intro ch hch
    rcases List.mem_append.mp hch with h1 | h2
    · rcases List.mem_append.mp h1 with h3 | h4
      · exact hpre ch h3
      · rcases List.mem_append.mp (mem_of_mem_lstripSet h4) with h5 | h6
        · exact htok ch h5
        · exact hc ch h6
    · exact hsuf ch h2
  rw [toMwLine, hstart, transform_inner_line_of_no_delim hnd]

/-- A heading token `h<dg>. ` is no literal prefix of the line
`'h' + d + '. ' + c` when the digit string `d` differs from the single
digit `dg`. -/
theorem hN_token_mismatch (dg : Char) (d c : List Char) (hne : d ≠ [])
    (hdig : ∀ ch ∈ d, ch.isDigit = true) (hd : d ≠ [dg]) :
    List.isPrefixOf ('h' :: dg :: '.' :: ' ' :: [])
      ('h' :: (d ++ '.' :: ' ' :: c)) = false := by
  cases d with
  | nil => exact absurd rfl hne
  | cons e es =>
    by_cases he : dg = e
    · subst he
      cases es with
      | nil => exact absurd rfl hd
      | cons f fs =>
        have hf : f ≠ '.' := by
          intro hfe
          have := hdig f (by simp)
          rw [hfe] at this
          exact absurd this (by decide)
        simp [List.isPrefixOf, List.cons_append, hf, Ne.symm hf]
    · simp [List.isPrefixOf, List.cons_append, he, Ne.symm he]

/-- C3 (amended): for levels 1-4 and delimiter-free content the heading line
becomes the char-set-stripped remainder wrapped in exactly N equals signs on
each side, per the template; for any other digit string as level (N = 0 or
N ≥ 5 in decimal) the line matches no structural rule and, with
delimiter-free content, passes through translation unchanged; and the
claim's concrete scenario holds. -/
theorem c3_heading_levels :
    (∀ N, 1 ≤ N → N ≤ 4 → ∀ c : List Char, (∀ ch ∈ c, isDelim ch = false) →
      toMwLine ('h' :: Nat.digitChar N :: '.' :: ' ' :: c) =
        List.replicate N '=' ++ ([' '] ++
          (lstripSet ['h', Nat.digitChar N, '.', ' ']
            ('h' :: Nat.digitChar N :: '.' :: ' ' :: c) ++
          ([' '] ++ List.replicate N '=')))) ∧
    (∀ d c : List Char, d ≠ [] → (∀ ch ∈ d, ch.isDigit = true) →
      d ∉ [['1'], ['2'], ['3'], ['4']] →
      findRule CONFLUENCE_MU ('h' :: (d ++ '.' :: ' ' :: c)) = none ∧
      ((∀ ch ∈ c, isDelim ch = false) →
        toMwLine ('h' :: (d ++ '.' :: ' ' :: c)) =
          'h' :: (d ++ '.' :: ' ' :: c))) ∧
    to_mw "h1. H1\nh2. H2\nh3. H3\nh4. H4\n" =
      ["= H1 =", "== H2 ==", "=== H3 ===", "==== H4 ====", ""] := by
  refine ⟨?_, ?_, by decide⟩
  · intro N hN1 hN4 c hc
    interval_cases N
    · rw [show Nat.digitChar 1 = '1' from by decide]
      exact toMwLine_heading ("h1. ".data) ("h1".data) ("= ".data) (" =".data)
        c (by simp [findRule, CONFLUENCE_MU, List.find?, List.isPrefixOf])
        (by decide) (by decide) (by decide) (by decide) hc
    · rw [show Nat.digitChar 2 = '2' from by decide]
      exact toMwLine_heading ("h2. ".data) ("h2".data) ("== ".data) (" ==".data)
        c (by simp [findRule, CONFLUENCE_MU, List.find?, List.isPrefixOf])
        (by decide) (by decide) (by decide) (by decide) hc
    · rw [show Nat.digitChar 3 = '3' from by decide]
      exact toMwLine_heading ("h3. ".data) ("h3".data) ("=== ".data) (" ===".data)
        c (by simp [findRule, CONFLUENCE_MU, List.find?, List.isPrefixOf])
        (by decide) (by decide) (by decide) (by decide) hc
    · rw [show Nat.digitChar 4 = '4' from by decide]
      exact toMwLine_heading ("h4. ".data) ("h4".data) ("==== ".data) (" ====".data)
        c (by simp [findRule, CONFLUENCE_MU, List.find?, List.isPrefixOf])
        (by decide) (by decide) (by decide) (by decide) hc
  · intro d c hne hdig hnotin
    have hfr : findRule CONFLUENCE_MU ('h' :: (d ++ '.' :: ' ' :: c)) = none := by
      apply List.find?_eq_none.mpr
      intro r hr
      have hnotin1 : d ≠ ['1'] := by intro h; exact hnotin (by rw [h]; simp)
      have hnotin2 : d ≠ ['2'] := by intro h; exact hnotin (by rw [h]; simp)
      have hnotin3 : d ≠ ['3'] := by intro h; exact hnotin (by rw [h]; simp)
      have hnotin4 : d ≠ ['4'] := by intro h; exact hnotin (by rw [h]; simp)
      fin_cases hr
      · simp [hN_token_mismatch '1' d c hne hdig hnotin1]
      · simp [hN_token_mismatch '2' d c hne hdig hnotin2]
      · simp [hN_token_mismatch '3' d c hne hdig hnotin3]
      · simp [hN_token_mismatch '4' d c hne hdig hnotin4]
      · simp [List.isPrefixOf]
      · simp [List.isPrefixOf]
      · simp [List.isPrefixOf]
      · simp [List.isPrefixOf]
    refine ⟨hfr, fun hc => ?_⟩
    have hstart : transform_line_start ('h' :: (d ++ '.' :: ' ' :: c)) =
        'h' :: (d ++ '.' :: ' ' :: c) := by
      rw [transform_line_start, transform_line_start_with, hfr]
    have hnd : ∀ ch ∈ 'h' :: (d ++ '.' :: ' ' :: c), isDelim ch = false := by
      intro ch hch
      rcases List.mem_cons.mp hch with h1 | h2
      · rw [h1]; decide
      · rcases List.mem_append.mp h2 with h3 | h4
        · exact isDelim_eq_false_of_isDigit (hdig ch h3)
        · rcases List.mem_cons.mp h4 with h5 | h6
          · rw [h5]; decide
          · rcases List.mem_cons.mp h6 with h7 | h8
            · rw [h7]; decide
            · exact hc ch h8
    rw [toMwLine, hstart, transform_inner_line_of_no_delim hnd]

/-- C3 witness: the amended theorem applied to a level-2 heading with
concrete content and to the unsupported level 17. -/
theorem c3_heading_levels_witness :
    toMwLine ('h' :: Nat.digitChar 2 :: '.' :: ' ' :: "Hi".data) =
      List.replicate 2 '=' ++ ([' '] ++
        (lstripSet ['h', Nat.digitChar 2, '.', ' ']
          ('h' :: Nat.digitChar 2 :: '.' :: ' ' :: "Hi".data) ++
        ([' '] ++ List.replicate 2 '='))) ∧
    findRule CONFLUENCE_MU ('h' :: ("17".data ++ '.' :: ' ' :: "ok".data)) =
      none :=
  ⟨c3_heading_levels.1 2 (by decide) (by decide) _ (by decide),
   (c3_heading_levels.2.1 "17".data "ok".data (by decide) (by decide)
     (by decide)).1⟩

/-! ### Deduplication lemmas -/

/-- A key is absent from an association list iff its lookup fails. -/
theorem alookup_eq_none_iff {β : Type} (k : List Char)
    (l : List (List Char × β)) : alookup k l = none ↔ k ∉ l.map Prod.fst := by
  induction l with
  | nil => simp [alookup]
  | cons x t ih =>
    rw [alookup, List.map_cons]
    by_cases h : k = x.1
    · rw [if_pos h]
      constructor
      · intro hcon; cases hcon
      · intro hcon
        exact absurd (by rw [h]; exact List.mem_cons_self _ _) hcon
    · rw [if_neg h, ih]
      constructor
      · intro h1 hcon
        rcases List.mem_cons.mp hcon with h2 | h3
        · exact h h2
        · exact h1 h3
      · intro h1 h2
        exact h1 (List.mem_cons_of_mem _ h2)

/-- Lookup across appending one fresh entry at the end. -/
theorem alookup_append_single {β : Type} (k j : List Char) (v : β)
    (l : List (List Char × β)) :
    alookup k (l ++ [(j, v)]) =
      match alookup k l with
      | some w => some w
      | none => if k = j then some v else none := by
  induction l with
  | nil => rfl
  | cons x t ih =>
    rw [List.cons_append, alookup, alookup]
    by_cases h : k = x.1
    · simp [h]
    · simp only [if_neg h, ih]

/-- Updating a present key makes its lookup the new value. -/
theorem alookup_aupdate_self (k : List Char) (v : Page)
    (l : List (List Char × Page)) (h : (alookup k l).isSome) :
    alookup k (aupdate k v l) = some v := by
  induction l with
  | nil => simp [alookup] at h
  | cons x t ih =>
    rw [aupdate]
    by_cases hk : k = x.1
    · rw [if_pos hk, alookup, if_pos rfl]
    · rw [if_neg hk, alookup, if_neg hk]
      rw [alookup, if_neg hk] at h
      exact ih h

/-- Updating one key leaves every other lookup unchanged. -/
theorem alookup_aupdate_ne (k j : List Char) (v : Page)
    (l : List (List Char × Page)) (h : j ≠ k) :
    alookup j (aupdate k v l) = alookup j l := by
  induction l with
  | nil => rfl
  | cons x t ih =>
    rw [aupdate]
    by_cases hk : k = x.1
    · rw [if_pos hk, alookup, alookup, ← hk, if_neg h, if_neg (hk ▸ h)]
    · rw [if_neg hk, alookup, alookup]
      by_cases hj : j = x.1
      · rw [if_pos hj, if_pos hj]
      · rw [if_neg hj, if_neg hj, ih]

/-- `aupdate` keeps the key sequence unchanged. -/
theorem aupdate_map_fst (k : List Char) (v : Page)
    (l : List (List Char × Page)) :
    (aupdate k v l).map Prod.fst = l.map Prod.fst := by
  induction l with
  | nil => rfl
  | cons x t ih =>
    rw [aupdate]
    by_cases hk : k = x.1
    · rw [if_pos hk, List.map_cons, List.map_cons, hk]
    · rw [if_neg hk, List.map_cons, List.map_cons, ih]

/-- A successful lookup exhibits a member of the association list. -/
theorem mem_of_alookup_eq_some {β : Type} {k : List Char} {v : β}
    {l : List (List Char × β)} (h : alookup k l = some v) : (k, v) ∈ l := by
  induction l with
  | nil => simp [alookup] at h
  | cons x t ih =>
    rw [alookup] at h
    by_cases hk : k = x.1
    · rw [if_pos hk] at h
      injection h with hv
      have : x = (k, v) := by
        obtain ⟨x1, x2⟩ := x
        simp only at hk hv
        rw [hk, hv]
      rw [this]
      exact List.mem_cons_self _ _
    · rw [if_neg hk] at h
      exact List.mem_cons_of_mem _ (ih h)

/-- With duplicate-free keys, lookup of a member's key yields its value. -/
theorem alookup_of_mem_nodup {β : Type} {l : List (List Char × β)}
    {e : List Char × β} (he : e ∈ l) (hnd : (l.map Prod.fst).Nodup) :
    alookup e.1 l = some e.2 := by
  induction l with
  | nil => cases he
  | cons x t ih =>
    rcases List.mem_cons.mp he with h1 | h2
    · rw [h1, alookup, if_pos rfl]
    · have hnd' : (x.1 :: t.map Prod.fst).Nodup := by
        rw [List.map_cons] at hnd
        exact hnd
      have hx := List.nodup_cons.mp hnd'
      rw [alookup]
      have hne : e.1 ≠ x.1 := by
        intro hcon
        have : x.1 ∈ t.map Prod.fst := by
          rw [← hcon]
          exact List.mem_map.mpr ⟨e, h2, rfl⟩
        exact hx.1 this
      rw [if_neg hne]
      exact ih h2 hx.2

/-- With duplicate-free keys, members of an association list are determined
by their keys. -/
theorem keys_inj {β : Type} {l : List (List Char × β)}
    (h : (l.map Prod.fst).Nodup) {a b : List Char × β}
    (ha : a ∈ l) (hb : b ∈ l) (hfst : a.1 = b.1) : a = b := by
  induction l with
  | nil => cases ha
  | cons x t ih =>
    have h' : (x.1 :: t.map Prod.fst).Nodup := by
      rw [List.map_cons] at h
      exact h
    have hx := List.nodup_cons.mp h'
    rcases List.mem_cons.mp ha with ha1 | ha2 <;>
      rcases List.mem_cons.mp hb with hb1 | hb2
    · rw [ha1, hb1]
    · exfalso
      apply hx.1
      rw [ha1] at hfst
      rw [hfst]
      exact List.mem_map.mpr ⟨b, hb2, rfl⟩
    · exfalso
      apply hx.1
      rw [hb1] at hfst
      rw [← hfst]
      exact List.mem_map.mpr ⟨a, ha2, rfl⟩
    · exact ih hx.2 ha2 hb2

/-- A filter keeping exactly one member of a duplicate-free list is that
singleton. -/
theorem filter_eq_singleton {α : Type} {l : List α} {q : α → Bool} {a : α}
    (hnd : l.Nodup) (ha : a ∈ l) (hqa : q a = true)
    (huniq : ∀ b ∈ l, q b = true → b = a) : l.filter q = [a] := by
  induction l with
  | nil => cases ha
  | cons x xs ih =>
    have hx := List.nodup_cons.mp hnd
    rcases List.mem_cons.mp ha with h1 | h2
    · subst h1
      rw [List.filter_cons_of_pos hqa]
      have : xs.filter q = [] := by
        rw [List.filter_eq_nil_iff]
        intro b hb hqb
        have hba := huniq b (List.mem_cons_of_mem _ hb) hqb
        rw [hba] at hb
        exact hx.1 hb
      rw [this]
    · by_cases hqx : q x = true
      · exfalso
        have hxa := huniq x (List.mem_cons_self _ _) hqx
        rw [hxa] at hx
        exact hx.1 h2
      · rw [List.filter_cons_of_neg (by simpa using hqx)]
        exact ih hx.2 h2 fun b hb hqb =>
          huniq b (List.mem_cons_of_mem _ hb) hqb

/-- The date comparison as a proposition. -/
theorem dateLt_iff {a b : List Char} : dateLt a b = true ↔ a < b := by
  rw [dateLt]
  exact decide_eq_true_iff

/-- The date comparison's failure as a proposition. -/
theorem dateLt_eq_false_iff {a b : List Char} : dateLt a b = false ↔ ¬ a < b := by
  rw [dateLt]
  simp

/-- One step added on the right of the winner scan. -/
theorem bestP_append_single (l : List Page) (r : Page) :
    bestP (l ++ [r]) = bestStep (bestP l) r := by
  rw [bestP, bestP, List.foldl_append]
  rfl

/-- The winner scan of a nonempty list never fails. -/
theorem foldl_bestStep_some (t : List Page) :
    ∀ w : Page, ∃ u, List.foldl bestStep (some w) t = some u := by
  induction t with
  | nil => exact fun w => ⟨w, rfl⟩
  | cons r rs ih =>
    intro w
    rw [List.foldl_cons, bestStep]
    by_cases h : dateLt w.lastModificationDate r.lastModificationDate
    · rw [if_pos h]; exact ih r
    · rw [if_neg h]; exact ih w

/-- The winner scan fails exactly on the empty list. -/
theorem bestP_eq_none_iff (l : List Page) : bestP l = none ↔ l = [] := by
  cases l with
  | nil => simp [bestP]
  | cons a t =>
    constructor
    · intro h
      exfalso
      obtain ⟨u, hu⟩ := foldl_bestStep_some t a
      rw [bestP, List.foldl_cons] at h
      have : bestStep none a = some a := rfl
      rw [this, hu] at h
      cases h
    · intro h; cases h

/-- The record the winner scan selects is a member attaining the maximal
date, and it is the first such member: everything before it in the list has
a strictly smaller date. -/
theorem bestP_spec (l : List Page) (w : Page) (h : bestP l = some w) :
    ∃ l1 l2, l = l1 ++ w :: l2 ∧
      (∀ x ∈ l1,
        dateLt x.lastModificationDate w.lastModificationDate = true) ∧
      (∀ y ∈ l,
        dateLt w.lastModificationDate y.lastModificationDate = false) := by
  induction l using List.reverseRecOn generalizing w with
  | nil => simp [bestP] at h
  | append_singleton l r ih =>
    rw [bestP_append_single] at h
    cases hb : bestP l with
    | none =>
      have hl : l = [] := (bestP_eq_none_iff l).mp hb
      subst hl
      rw [hb, bestStep] at h
      injection h with hw
      subst hw
      refine ⟨[], [], rfl, ?_, ?_⟩
      · intro x hx
        cases hx
      · intro y hy
        have : y = r := by simpa using hy
        subst this
        rw [dateLt_eq_false_iff]
        exact lt_irrefl _
    | some v =>
      rw [hb, bestStep] at h
      obtain ⟨l1, l2, hdecomp, hl1, hmax⟩ := ih v hb
      by_cases hcmp : dateLt v.lastModificationDate r.lastModificationDate
      · rw [if_pos hcmp] at h
        injection h with hw
        subst hw
        refine ⟨l, [], rfl, ?_, ?_⟩
        · intro x hx
          rw [dateLt_iff]
          have hxv : ¬ v.lastModificationDate < x.lastModificationDate :=
            dateLt_eq_false_iff.mp (hmax x hx)
          exact lt_of_le_of_lt (le_of_not_lt hxv) (dateLt_iff.mp hcmp)
        · intro y hy
          rw [dateLt_eq_false_iff]
          rcases List.mem_append.mp hy with hy1 | hy2
          · have hxv : ¬ v.lastModificationDate < y.lastModificationDate :=
              dateLt_eq_false_iff.mp (hmax y hy1)
            exact not_lt_of_gt
              (lt_of_le_of_lt (le_of_not_lt hxv) (dateLt_iff.mp hcmp))
          · have : y = r := by simpa using hy2
            subst this
            exact lt_irrefl _
      · rw [if_neg hcmp] at h
        injection h with hw
        subst hw
        refine ⟨l1, l2 ++ [r], by rw [hdecomp]; simp, hl1, ?_⟩
        intro y hy
        rcases List.mem_append.mp hy with hy1 | hy2
        · exact hmax y hy1
        · have : y = r := by simpa using hy2
          subst this
          simpa using hcmp

/-- The winner scan picks exactly the first member attaining the maximal
date. -/
theorem bestP_eq_firstMax (l : List Page) : bestP l = firstMax l := by
  cases hb : bestP l with
  | none =>
    rw [(bestP_eq_none_iff l).mp hb]
    rfl
  | some w =>
    obtain ⟨l1, l2, hdecomp, hl1, hmax⟩ := bestP_spec l w hb
    subst hdecomp
    rw [firstMax, List.find?_append]
    have h1 : List.find? (isGroupMax (l1 ++ w :: l2)) l1 = none := by
      apply List.find?_eq_none.mpr
      intro x hx hcon
      have := List.all_eq_true.mp hcon w (by simp)
      rw [hl1 x hx] at this
      simp at this
    rw [h1, Option.none_or]
    rw [List.find?_cons_of_pos]
    rw [isGroupMax, List.all_eq_true]
    intro u hu
    rw [hmax u hu]
    rfl

/-- The group of `i` across appending one page record. -/
theorem groupRecs_append (i : List Char) (ps : List (List Char × Page))
    (kv : List Char × Page) :
    groupRecs i (ps ++ [kv]) =
      groupRecs i ps ++ (if identOf kv.2 = i then [kv.2] else []) := by
  rw [groupRecs, groupRecs, List.map_append, List.filter_append]
  by_cases h : identOf kv.2 = i
  · simp [h]
  · simp [h]

/-- Invariant of the `recent_pages` fold of `filter_most_recent`: at every
point, looking up an identifier in the accumulator yields exactly the winner
of the scan of the group processed so far, and the accumulator's keys stay
duplicate-free. -/
theorem fmr_fold (pages : List (List Char × Page)) :
    ∀ acc seen : List (List Char × Page),
      (acc.map Prod.fst).Nodup →
      (∀ j, alookup j acc = bestP (groupRecs j seen)) →
      ((pages.foldl fmrStep acc).map Prod.fst).Nodup ∧
        ∀ j, alookup j (pages.foldl fmrStep acc) =
          bestP (groupRecs j (seen ++ pages)) := by
  induction pages with
  | nil =>
    intro acc seen h1 h2
    rw [List.foldl_nil, List.append_nil]
    exact ⟨h1, h2⟩
  | cons kv t ih =>
    intro acc seen h1 h2
    rw [List.foldl_cons]
    have key : ((fmrStep acc kv).map Prod.fst).Nodup ∧
        ∀ j, alookup j (fmrStep acc kv) =
          bestP (groupRecs j (seen ++ [kv])) := by
      cases halo : alookup (identOf kv.2) acc with
      | none =>
        have hstep : fmrStep acc kv = acc ++ [(identOf kv.2, kv.2)] := by
          rw [fmrStep, halo]
        constructor
        · rw [hstep, List.map_append]
          have hnotin : identOf kv.2 ∉ acc.map Prod.fst :=
            (alookup_eq_none_iff _ _).mp halo
          simp [List.nodup_append, h1, hnotin]
        · intro j
          have hgr := groupRecs_append j seen kv
          by_cases hj : identOf kv.2 = j
          · subst hj
            rw [if_pos rfl] at hgr
            rw [hstep, alookup_append_single, hgr, bestP_append_single, h2]
            rw [h2 (identOf kv.2)] at halo
            rw [halo]
            show (if identOf kv.2 = identOf kv.2 then some kv.2 else none) =
              bestStep none kv.2
            rw [if_pos rfl]
            rfl
          · rw [if_neg hj, List.append_nil] at hgr
            rw [hstep, alookup_append_single, hgr, h2 j]
            cases hacc : bestP (groupRecs j seen)
            · show (if j = identOf kv.2 then some kv.2 else none) = none
              rw [if_neg (fun hc => hj hc.symm)]
            · rfl
      | some other =>
        by_cases hcmp :
            dateLt other.lastModificationDate kv.2.lastModificationDate
        · have hstep : fmrStep acc kv = aupdate (identOf kv.2) kv.2 acc := by
            simp only [fmrStep, halo]
            rw [if_pos hcmp]
          constructor
          · rw [hstep, aupdate_map_fst]
            exact h1
          · intro j
            have hgr := groupRecs_append j seen kv
            by_cases hj : identOf kv.2 = j
            · subst hj
              rw [if_pos rfl] at hgr
              rw [hstep, alookup_aupdate_self _ _ _ (by rw [halo]; rfl)]
              rw [hgr, bestP_append_single]
              rw [h2 (identOf kv.2)] at halo
              rw [halo]
              simp only [bestStep]
              rw [if_pos hcmp]
            · rw [if_neg hj, List.append_nil] at hgr
              rw [hstep, alookup_aupdate_ne _ _ _ _ (fun hc => hj hc.symm), hgr]
              exact h2 j
        · have hstep : fmrStep acc kv = acc := by
            simp only [fmrStep, halo]
            rw [if_neg hcmp]
          constructor
          · rw [hstep]
            exact h1
          · intro j
            have hgr := groupRecs_append j seen kv
            by_cases hj : identOf kv.2 = j
            · subst hj
              rw [if_pos rfl] at hgr
              rw [hstep, hgr, bestP_append_single, h2]
              rw [h2 (identOf kv.2)] at halo
              rw [halo]
              simp only [bestStep]
              rw [if_neg hcmp]
            · rw [if_neg hj, List.append_nil] at hgr
              rw [hstep, hgr]
              exact h2 j
    have hres := ih (fmrStep acc kv) (seen ++ [kv]) key.1 key.2
    rw [List.append_assoc] at hres
    exact hres

/-- What `filter_most_recent` keeps of one group: nothing when the group is
empty, and exactly the pair of the group's scan winner otherwise. -/
theorem fmr_group_eq (pages : List (List Char × Page))
    (hkeys : (pages.map Prod.fst).Nodup)
    (hid : ∀ p ∈ pages, p.2.id = p.1) (i : List Char) :
    (filter_most_recent pages).filter (fun p => identOf p.2 == i) =
      match bestP (groupRecs i pages) with
      | none => []
      | some w => [(w.id, w)] := by
  obtain ⟨hrecnd, hlook0⟩ := fmr_fold pages [] [] (by simp) (by intro j; rfl)
  have hlook : ∀ j, alookup j (pages.foldl fmrStep []) =
      bestP (groupRecs j pages) := by
    intro j
    have := hlook0 j
    rwa [List.nil_append] at this
  have hfm : filter_most_recent pages =
      pages.filter (fun p =>
        ((pages.foldl fmrStep []).map (fun q => q.2.id)).contains p.1) := rfl
  rw [hfm, List.filter_filter]
  cases hb : bestP (groupRecs i pages) with
  | none =>
    have hempty : groupRecs i pages = [] := (bestP_eq_none_iff _).mp hb
    show _ = ([] : List (List Char × Page))
    rw [List.filter_eq_nil_iff]
    intro p hp hcon
    rw [Bool.and_eq_true] at hcon
    have hq : identOf p.2 = i := eq_of_beq hcon.1
    have hpg : p.2 ∈ groupRecs i pages := by
      rw [groupRecs, List.mem_filter]
      refine ⟨List.mem_map.mpr ⟨p, hp, rfl⟩, ?_⟩
      rw [hq]
      exact beq_self_eq_true i
    rw [hempty] at hpg
    cases hpg
  | some w =>
    obtain ⟨l1, l2, hdecomp, hbefore, hmax⟩ := bestP_spec _ _ hb
    have hwmem : w ∈ groupRecs i pages := by rw [hdecomp]; simp
    rw [groupRecs] at hwmem
    have hwgr := List.mem_filter.mp hwmem
    have hwid : identOf w = i := eq_of_beq hwgr.2
    obtain ⟨pw, hpw, hpws⟩ := List.mem_map.mp hwgr.1
    have hpwid : pw.1 = w.id := by
      rw [← hpws]
      exact (hid pw hpw).symm
    have hpweq : (w.id, w) = pw := by
      rw [← hpwid, ← hpws]
    show _ = [(w.id, w)]
    apply filter_eq_singleton (List.Nodup.of_map _ hkeys) (hpweq ▸ hpw)
    · rw [Bool.and_eq_true]
      constructor
      · show (identOf w == i) = true
        rw [hwid]
        exact beq_self_eq_true i
      · have hmem : (i, w) ∈ pages.foldl fmrStep [] :=
          mem_of_alookup_eq_some (by rw [hlook i]; exact hb)
        have : w.id ∈ (pages.foldl fmrStep []).map (fun q => q.2.id) :=
          List.mem_map.mpr ⟨(i, w), hmem, rfl⟩
        exact List.elem_iff.mpr this
    · intro b hb2 hcon
      rw [Bool.and_eq_true] at hcon
      have hq : identOf b.2 = i := eq_of_beq hcon.1
      have hcont : b.1 ∈ (pages.foldl fmrStep []).map (fun q => q.2.id) :=
        List.elem_iff.mp hcon.2
      obtain ⟨e, he, heid⟩ := List.mem_map.mp hcont
      have hev : alookup e.1 (pages.foldl fmrStep []) = some e.2 :=
        alookup_of_mem_nodup he hrecnd
      rw [hlook e.1] at hev
      obtain ⟨m1, m2, hdec2, _, _⟩ := bestP_spec _ _ hev
      have hvmem : e.2 ∈ groupRecs e.1 pages := by rw [hdec2]; simp
      rw [groupRecs] at hvmem
      have hvgr := List.mem_filter.mp hvmem
      have hvid : identOf e.2 = e.1 := eq_of_beq hvgr.2
      obtain ⟨pv, hpv, hpvs⟩ := List.mem_map.mp hvgr.1
      have hpv1 : pv.1 = b.1 := by
        rw [← heid, ← hpvs]
        exact (hid pv hpv).symm
      have hpveq : pv = b := keys_inj hkeys hpv hb2 hpv1
      have hb2e : b.2 = e.2 := by rw [← hpveq, hpvs]
      have he1 : e.1 = i := by rw [← hvid, ← hb2e, hq]
      rw [he1, hb] at hev
      injection hev with hew
      have hb1 : b.1 = w.id := by rw [← heid, hew]
      have hbb : b.2 = w := by rw [hb2e, hew]
      exact Prod.ext hb1 hbb

/-- C9 (amended): after deduplication every (title, creationDate) group
retains exactly one record (when the group is nonempty), namely the FIRST
record in iteration order among those attaining the group's latest
`lastModificationDate`; in particular, of two records with exactly equal
dates the one encountered EARLIER is retained. -/
theorem c9_dedup_first_latest (pages : List (List Char × Page))
    (hkeys : (pages.map Prod.fst).Nodup)
    (hid : ∀ p ∈ pages, p.2.id = p.1) (i : List Char) :
    ((filter_most_recent pages).filter
        (fun p => identOf p.2 == i)).map Prod.snd
      = (firstMax (groupRecs i pages)).toList ∧
    (groupRecs i pages ≠ [] →
      ((filter_most_recent pages).filter
        (fun p => identOf p.2 == i)).length = 1) := by
  have h := fmr_group_eq pages hkeys hid i
  constructor
  · rw [h, ← bestP_eq_firstMax]
    cases hbp : bestP (groupRecs i pages)
    · rfl
    · rfl
  · intro hne
    rw [h]
    cases hbp : bestP (groupRecs i pages) with
    | none => exact absurd ((bestP_eq_none_iff _).mp hbp) hne
    | some w => rfl

/-- C9 witness: the amended theorem applied to the two-record tie group. -/
theorem c9_dedup_first_latest_witness :
    ((filter_most_recent tiePages).filter
        (fun p => identOf p.2 == identOf tieR1)).map Prod.snd
      = (firstMax (groupRecs (identOf tieR1) tiePages)).toList ∧
    (groupRecs (identOf tieR1) tiePages ≠ [] →
      ((filter_most_recent tiePages).filter
        (fun p => identOf p.2 == identOf tieR1)).length = 1) :=
  c9_dedup_first_latest tiePages (by decide) (by decide) (identOf tieR1)
